import Mathlib

/-!
# Verification of the storage-master record store

Shallow embedding of `src/module/storage-master.js` (classes `Storage` and
`ObjectStorage`).  JavaScript primitive values are modelled by `JSVal`;
JavaScript objects (records, raw input objects, schemas) are modelled by
insertion-ordered association lists, which is faithful to the enumeration
order of string-keyed own properties.  Numbers are modelled by `Int`
(the repository only ever works with integral ids and field values;
float-specific behaviour is outside the model).  A thrown `TypeError`
is modelled by an explicit error result.
-/

set_option maxRecDepth 4096

namespace StorageMaster

/-- Model of a JavaScript primitive value as stored/compared by the module. -/
inductive JSVal where
  | vNum (n : Int)
  | vStr (s : String)
  | vBool (b : Bool)
  | vNull
  | vUndefined
  deriving DecidableEq, Repr

open JSVal

/-- `typeof` on a modelled value (`typeof null` is `"object"`). -/
def typeOf : JSVal → String
  | vNum _ => "number"
  | vStr _ => "string"
  | vBool _ => "boolean"
  | vNull => "object"
  | vUndefined => "undefined"

/-- Accumulate a run of decimal digits; `none` as soon as a non-digit
appears. -/
def digitsVal : List Char → Nat → Option Nat
  | [], acc => some acc
  | c :: rest, acc =>
    if c.isDigit then digitsVal rest (acc * 10 + (c.toNat - '0'.toNat)) else none

/-- JavaScript `ToNumber` on strings, restricted to the integer literals
(optionally minus-signed decimal digits) that the repository's data can
contain; the empty string converts to `0`, anything else non-literal is
NaN (`none`). -/
def strToNumber (s : String) : Option Int :=
  match s.toList with
  | [] => some 0
  | '-' :: rest => if rest = [] then none else (digitsVal rest 0).map (fun n => -(n : Int))
  | c :: rest => if c.isDigit then (digitsVal (c :: rest) 0).map (fun n => (n : Int)) else none

/-- Numeric coercion used by loose equality and subtraction:
`none` stands for NaN / not coercible. -/
def primNum : JSVal → Option Int
  | vNum n => some n
  | vStr s => strToNumber s
  | vBool b => some (if b then 1 else 0)
  | vNull => some 0
  | vUndefined => none

/-- JavaScript loose equality `==` on modelled primitive values:
`null == undefined`; same-type comparisons are strict; number/string and
boolean/anything comparisons go through numeric coercion;
`null`/`undefined` equal nothing else. -/
def looseEq : JSVal → JSVal → Bool
  | vNull, vNull => true
  | vNull, vUndefined => true
  | vUndefined, vNull => true
  | vUndefined, vUndefined => true
  | vNull, _ => false
  | vUndefined, _ => false
  | _, vNull => false
  | _, vUndefined => false
  | vStr a, vStr b => a = b
  | a, b =>
    match primNum a, primNum b with
    | some x, some y => x = y
    | _, _ => false

/-- JavaScript subtraction `a - b` as used by the sort comparator; a NaN
result is mapped to `0`, matching how `Array.prototype.sort` treats a NaN
comparator result (ES `SortCompare` treats NaN as `+0`). -/
def jsSub (a b : JSVal) : Int :=
  match primNum a, primNum b with
  | some x, some y => x - y
  | _, _ => 0

/-- `a ?? b` applies for `null` and `undefined` only. -/
def isNullish : JSVal → Bool
  | vNull => true
  | vUndefined => true
  | _ => false

/-- A JavaScript object with primitive values: insertion-ordered own
properties.  Used for records, raw `values` arguments and parsed JSON rows. -/
abbrev Rec := List (String × JSVal)

/-- The keys of an object, in property order. -/
def keys (o : Rec) : List String := o.map Prod.fst

/-- Property assignment `o[k] = v`: updates the value in place when the key
exists (keeping its position), otherwise appends the key at the end —
exactly JavaScript's own-property update/insertion order. -/
def setProp (o : Rec) (k : String) (v : JSVal) : Rec :=
  if k ∈ keys o then o.map (fun p => if p.1 = k then (k, v) else p)
  else o ++ [(k, v)]

/-- Object spread `{...base, ...pairs}` restricted to what the module uses:
starting from `base`, assign every property of `pairs` in order
(a duplicate key overwrites the value but keeps the first position). -/
def spreadInto (base : Rec) (pairs : Rec) : Rec :=
  pairs.foldl (fun acc p => setProp acc p.1 p.2) base

/-- Property read `o[k]`, `undefined` when absent. -/
def getProp (o : Rec) (k : String) : JSVal :=
  (o.lookup k).getD vUndefined

/-- `row.id` of a record. -/
def recId (r : Rec) : JSVal := getProp r "id"

/-- One field descriptor of the declarative schema:
`{type, default?, rename?}`. -/
structure FieldDesc where
  type : String
  default : Option JSVal
  rename : Option String
  deriving DecidableEq, Repr

/-- The schema (`this.structure`): a JavaScript object mapping field name to
descriptor, modelled as an insertion-ordered association list. -/
abbrev Schema := List (String × FieldDesc)

/-- `Object.keys(this.structure)`. -/
def structKeys (st : Schema) : List String := st.map Prod.fst

/-- The `save` sub-object of the options. -/
structure SaveOpts where
  auto : Option JSVal
  onExit : Option JSVal
  deriving DecidableEq, Repr

/-- Constructor options (`this.options`).  `spaces` only affects JSON
pretty-printing, which has no bearing on parsed content, so it is not
carried in the model. -/
structure Options where
  checkType : Option JSVal
  save : Option SaveOpts
  deriving DecidableEq, Repr

/-- `this.options?.checkType == false` (loose comparison: `0`, `''` and
`false` all disable type checking; an absent option does not). -/
def checkTypeDisabled (opts : Options) : Bool :=
  looseEq ((opts.checkType).getD vUndefined) (vBool false)

/-- `#isField(field)`: `field in this.structure`. -/
def isField (st : Schema) (field : String) : Bool :=
  (st.lookup field).isSome

/-- `#isCorrectType(field, data)`.  When type checking is enabled the code
destructures `const { type } = this.structure[field]` *before* the
`#isField` guard, so an undeclared field name makes it throw a `TypeError`;
the thrown exception is modelled by `none`. -/
def isCorrectType (st : Schema) (opts : Options) (field : String) (data : JSVal) :
    Option Bool :=
  if checkTypeDisabled opts then some (isField st field)
  else
    match st.lookup field with
    | none => none
    | some desc => some (isField st field && typeOf data = desc.type)

/-- The value `#createRow` stores for the declared field `current`:
the supplied `values[current]` when `#isCorrectType` accepts it, otherwise
`this.structure[current].default ?? null`.  (For a declared field
`#isCorrectType` never throws, so the `none` arm is unreachable there.) -/
def createRowVal (st : Schema) (opts : Options) (values : Rec) (current : String) :
    JSVal :=
  match isCorrectType st opts current (getProp values current) with
  | some true => getProp values current
  | _ => ((st.lookup current).bind FieldDesc.default).getD vNull

/-- `#createRow(values)`: reduce over `Object.keys(this.structure)`,
assigning each declared field its coerced value.  Renames are *not*
applied here. -/
def createRow (st : Schema) (opts : Options) (values : Rec) : Rec :=
  (structKeys st).foldl
    (fun previous current => setProp previous current (createRowVal st opts values current)) []

/-- The output key of a declared field in `#structure`:
`const rename = this.structure[current].rename; if (rename) ...` —
a rename is used only when truthy (the empty string is not). -/
def outKeyOf (st : Schema) (current : String) : String :=
  match (st.lookup current).bind FieldDesc.rename with
  | some r => if r = "" then current else r
  | none => current

/-- The record keys produced by load-time normalization, in schema order. -/
def outKeys (st : Schema) : List String := (structKeys st).map (outKeyOf st)

/-- `#structure()` applied to one parsed row: reduce over the schema keys,
reading `row[current]` (always the *original* name) and storing it under
the output key, then rebuild the row as `{ id: row.id, ...structured }`. -/
def structureRow (st : Schema) (raw : Rec) : Rec :=
  spreadInto [("id", getProp raw "id")]
    ((structKeys st).foldl
      (fun previous current => setProp previous (outKeyOf st current) (getProp raw current)) [])

/-- The record store (`Storage`): schema, options and the in-memory array.
The backing-file path only locates the file and is not modelled. -/
structure Store where
  struct : Schema
  opts : Options
  storage : List Rec
  deriving DecidableEq, Repr

/-- `get(id)`: first row with `row?.id == id` (loose equality). -/
def getF (s : Store) (id : JSVal) : Option Rec :=
  s.storage.find? (fun row => looseEq (recId row) id)

/-- `#generateID()`: draw random integers in `[0, 2^31]` until one is free.
`draws` models the successive outputs of `Math.random`; `none` models the
unbounded recursion never completing on the given draws. -/
def generateID (s : Store) (draws : List Int) : Option Int :=
  match draws with
  | [] => none
  | d :: rest => if (getF s (vNum d)).isSome then generateID s rest else some d

/-- `id ?? this.#generateID()`. -/
def resolveId (s : Store) (id : JSVal) (draws : List Int) : Option JSVal :=
  if isNullish id then (generateID s draws).map vNum else some id

/-- The row pushed by `add`/`set` for a fresh id:
`{ id: idv, ...this.#createRow(values) }`.  If the schema declares a field
literally named `"id"`, the spread overwrites the chosen id. -/
def pushedRow (st : Schema) (opts : Options) (idv : JSVal) (values : Rec) : Rec :=
  spreadInto [("id", idv)] (createRow st opts values)

/-- `add(id, values)`: no-op when a record with this id exists, otherwise
append a fully coerced row.  `none` only when id generation never completes. -/
def addF (s : Store) (id : JSVal) (values : Rec) (draws : List Int) : Option Store :=
  if (getF s id).isSome then some s
  else
    match resolveId s id draws with
    | none => none
    | some idv => some { s with storage := s.storage ++ [pushedRow s.struct s.opts idv values] }

/-- The `Object.entries(values).forEach` loop of `set` on an existing row:
each entry accepted by `#isCorrectType` is assigned onto the row; a thrown
`TypeError` (undeclared field with type checking on) aborts the loop and
propagates, leaving the assignments made so far in place — the Bool records
whether the loop threw. -/
def applyEntries (st : Schema) (opts : Options) (r : Rec) : Rec → Rec × Bool
  | [] => (r, false)
  | (f, v) :: rest =>
    match isCorrectType st opts f v with
    | none => (r, true)
    | some true => applyEntries st opts (setProp r f v) rest
    | some false => applyEntries st opts r rest

/-- `set(id, values)`: partial in-place update of the existing row with the
matching id, otherwise the same push as `add`.  The Bool records whether a
`TypeError` was thrown while updating (the store keeps the partial update
either way, as the exception propagates out of the mutated object). -/
def setF (s : Store) (id : JSVal) (values : Rec) (draws : List Int) :
    Option (Store × Bool) :=
  if (getF s id).isSome then
    let index := s.storage.findIdx (fun row => looseEq (recId row) id)
    let updated := applyEntries s.struct s.opts (s.storage.getD index []) values
    some ({ s with storage := s.storage.set index updated.1 }, updated.2)
  else
    match resolveId s id draws with
    | none => none
    | some idv =>
      some ({ s with storage := s.storage ++ [pushedRow s.struct s.opts idv values] }, false)

/-- `delete(id)`: keep the rows with `row.id != id`. -/
def deleteF (s : Store) (id : JSVal) : Store :=
  { s with storage := s.storage.filter (fun row => !looseEq (recId row) id) }

/-- `clear()`. -/
def clearF (s : Store) : Store := { s with storage := [] }

/-- The `#sort` comparator `(a, b) => order == 'ascending' ? a[field] - b[field]
: b[field] - a[field]`, with the default parameters `field = 'id'`,
`order = 'ascending'` applying when the argument is `undefined`. -/
def sortCmp (field : Option String) (order : Option String) (a b : Rec) : Int :=
  let f := field.getD "id"
  if order.getD "ascending" = "ascending" then jsSub (getProp a f) (getProp b f)
  else jsSub (getProp b f) (getProp a f)

/-- Stable insertion of `a` into `l`, placing it before the first element
`b` with comparator result `cmp a b ≤ 0`. -/
def sortInsert (le : Rec → Rec → Bool) (a : Rec) : List Rec → List Rec
  | [] => [a]
  | b :: l => if le a b then a :: b :: l else b :: sortInsert le a l

/-- `Array.prototype.sort(comparefn)` modelled as a stable sort: for a
consistent comparator this is the (unique) order ECMAScript prescribes;
for an inconsistent one the engine order is unspecified anyway. -/
def jsSortList (le : Rec → Rec → Bool) : List Rec → List Rec
  | [] => []
  | a :: l => sortInsert le a (jsSortList le l)

/-- `#sort(array, field, order)`. -/
def sortF (array : List Rec) (field : Option String) (order : Option String) :
    List Rec :=
  jsSortList (fun a b => sortCmp field order a b ≤ 0) array

/-- `getAll(sort)`: sorts `this.storage` *in place* and returns it; the
model returns both the value and the mutated store. -/
def getAllF (s : Store) (field : Option String) (order : Option String) :
    List Rec × Store :=
  let l := sortF s.storage field order
  (l, { s with storage := l })

/-- `getFew(value, field, sort, array)`: filter, then sort the (fresh)
filtered array when the `sort` argument is truthy (`none` models a falsy
argument; the defaulted `{}` is `some (none, none)`). -/
def getFewF (value : JSVal) (field : String)
    (sortArg : Option (Option String × Option String)) (array : List Rec) : List Rec :=
  let result := array.filter (fun row => looseEq (getProp row field) value)
  match sortArg with
  | some (f, o) => sortF result f o
  | none => result

/-- `JSON.parse(JSON.stringify(row))` on a record: stringification drops
properties whose value is `undefined`; every other modelled value
round-trips through JSON unchanged. -/
def jsonRT (r : Rec) : Rec := r.filter (fun p => p.2 ≠ vUndefined)

/-- `save()` followed by re-constructing the store from the same path with
the same schema and options: the file holds `JSON.stringify(this.storage)`,
construction parses it and applies `#structure()` to every row. -/
def loadFromSave (s : Store) : Store :=
  { s with storage := s.storage.map (fun r => structureRow s.struct (jsonRT r)) }

/-- `save?.auto` as seen by `#saveAuto` (`undefined` when `save` or `auto`
is absent). -/
def autoVal (opts : Options) : JSVal :=
  match opts.save with
  | none => vUndefined
  | some so => so.auto.getD vUndefined

/-- What `#saveAuto` schedules at construction. -/
inductive AutosaveDecision where
  | disabled
  | interval (ms : Int)
  deriving DecidableEq, Repr

/-- `#saveAuto()`: `save?.auto == 0` (loose) disables autosave; otherwise a
numeric `auto` schedules every `auto * 1000` ms and anything else falls
back to `60 * 1000` ms. -/
def saveAutoF (opts : Options) : AutosaveDecision :=
  if looseEq (autoVal opts) (vNum 0) then .disabled
  else
    match autoVal opts with
    | vNum n => .interval (n * 1000)
    | _ => .interval (60 * 1000)

/-! ## Association-list toolkit -/

theorem keys_append (o o' : Rec) : keys (o ++ o') = keys o ++ keys o' := by
  simp [keys]

theorem keys_setProp (o : Rec) (k : String) (v : JSVal) :
    keys (setProp o k v) = if k ∈ keys o then keys o else keys o ++ [k] := by
  unfold setProp
  split
  · simp only [keys, List.map_map]
    refine List.map_congr_left ?_
    intro p _
    by_cases h : p.1 = k <;> simp [h]
  · simp [keys]

theorem setProp_of_not_mem (o : Rec) (k : String) (v : JSVal) (h : k ∉ keys o) :
    setProp o k v = o ++ [(k, v)] := by
  unfold setProp
  simp [h]

theorem lookup_cons {β : Type} (a : String × β) (l : List (String × β)) (k : String) :
    (a :: l).lookup k = if a.1 = k then some a.2 else l.lookup k := by
  cases a with
  | mk x v =>
    by_cases h : x = k
    · subst h
      simp [List.lookup]
    · have hb : (k == x) = false := by
        simp only [beq_eq_false_iff_ne, ne_eq]
        exact fun hk => h hk.symm
      simp [List.lookup, hb, h]

theorem lookup_map_update_ne (o : Rec) (k k' : String) (v : JSVal) (h : k' ≠ k) :
    (o.map (fun p => if p.1 = k then (k, v) else p)).lookup k' = o.lookup k' := by
  induction o with
  | nil => rfl
  | cons a t ih =>
    rw [List.map_cons, lookup_cons, lookup_cons]
    by_cases ha : a.1 = k
    · rw [if_pos ha]
      have h1 : ¬((k, v).1 = k') := fun hk => h hk.symm
      have h2 : ¬(a.1 = k') := by
        rw [ha]
        exact fun hk => h hk.symm
      rw [if_neg h1, if_neg h2, ih]
    · rw [if_neg ha]
      by_cases hk : a.1 = k'
      · rw [if_pos hk, if_pos hk]
      · rw [if_neg hk, if_neg hk, ih]

theorem lookup_append_single_ne (o : Rec) (k k' : String) (v : JSVal) (h : k' ≠ k) :
    (o ++ [(k, v)]).lookup k' = o.lookup k' := by
  induction o with
  | nil =>
    have hb : (k' == k) = false := by simpa [beq_eq_false_iff_ne] using h
    simp [List.lookup, hb]
  | cons a t ih =>
    rw [List.cons_append, lookup_cons, lookup_cons]
    by_cases hk : a.1 = k'
    · rw [if_pos hk, if_pos hk]
    · rw [if_neg hk, if_neg hk, ih]

theorem lookup_setProp_ne (o : Rec) (k k' : String) (v : JSVal) (h : k' ≠ k) :
    (setProp o k v).lookup k' = o.lookup k' := by
  unfold setProp
  split
  · exact lookup_map_update_ne o k k' v h
  · exact lookup_append_single_ne o k k' v h

theorem lookup_isSome_iff {β : Type} (l : List (String × β)) (k : String) :
    (l.lookup k).isSome = true ↔ k ∈ l.map Prod.fst := by
  induction l with
  | nil => simp [List.lookup]
  | cons a t ih =>
    cases a with
    | mk x v =>
      by_cases h : x = k
      · subst h
        simp [List.lookup]
      · simp only [List.lookup, beq_iff_eq, Ne.symm h, if_neg]
        rw [show ((k == x : Bool)) = false by simp [beq_iff_eq, Ne.symm h, Ne.intro]]
        simp [Ne.symm h, ih]

theorem lookup_eq_some_mem {β : Type} {l : List (String × β)} {k : String} {v : β}
    (h : l.lookup k = some v) : (k, v) ∈ l := by
  induction l with
  | nil => simp [List.lookup] at h
  | cons a t ih =>
    cases a with
    | mk x w =>
      by_cases hx : k = x
      · subst hx
        simp [List.lookup] at h
        simp [h]
      · simp only [List.lookup, beq_iff_eq, hx, if_neg] at h
        rw [show ((k == x : Bool)) = false by simp [beq_iff_eq, hx]] at h
        exact List.mem_cons_of_mem _ (ih h)

theorem foldl_setProp_eq {α : Type} (keyOf : α → String) (valOf : α → JSVal)
    (l : List α) (acc : Rec)
    (hd : ∀ x ∈ l, keyOf x ∉ keys acc) (hn : (l.map keyOf).Nodup) :
    l.foldl (fun prev x => setProp prev (keyOf x) (valOf x)) acc
      = acc ++ l.map (fun x => (keyOf x, valOf x)) := by
  induction l generalizing acc with
  | nil => simp
  | cons a t ih =>
    simp only [List.foldl_cons]
    rw [setProp_of_not_mem _ _ _ (hd a (List.mem_cons_self a t))]
    rw [ih (acc ++ [(keyOf a, valOf a)])]
    · simp
    · intro x hx
      simp only [keys_append, List.mem_append]
      rintro (hmem | hmem)
      · exact hd x (List.mem_cons_of_mem _ hx) hmem
      · simp only [keys, List.map_cons, List.map_nil, List.mem_singleton] at hmem
        simp only [List.map_cons, List.nodup_cons] at hn
        exact hn.1 (by rw [← hmem]; exact List.mem_map_of_mem keyOf hx)
    · simp only [List.map_cons, List.nodup_cons] at hn
      exact hn.2

theorem lookup_map_eq {α : Type} (keyOf : α → String) (valOf : α → JSVal)
    (l : List α) (x : α) (hx : x ∈ l) (hn : (l.map keyOf).Nodup) :
    (l.map (fun x => (keyOf x, valOf x))).lookup (keyOf x) = some (valOf x) := by
  induction l with
  | nil => cases hx
  | cons a t ih =>
    simp only [List.map_cons, List.nodup_cons] at hn
    rcases List.mem_cons.mp hx with h | h
    · subst h
      simp [lookup_cons]
    · rw [List.map_cons, lookup_cons]
      rw [if_neg]
      · exact ih h hn.2
      · intro hk
        exact hn.1 (by rw [show keyOf a = keyOf x from hk]; exact List.mem_map_of_mem keyOf h)

theorem find?_getD_findIdx (p : Rec → Bool) (l : List Rec) (r : Rec) (d : Rec)
    (h : l.find? p = some r) : l.getD (l.findIdx p) d = r := by
  induction l with
  | nil => simp [List.find?] at h
  | cons a t ih =>
    rw [List.findIdx_cons]
    by_cases hp : p a
    · rw [List.find?_cons_of_pos _ hp] at h
      cases h
      simp [hp]
    · rw [List.find?_cons_of_neg _ hp] at h
      simp only [hp, cond_false]
      rw [List.getD_cons_succ]
      exact ih h

theorem lookup_of_mem_nodup {β : Type} {l : List (String × β)} {k : String} {v : β}
    (hn : (l.map Prod.fst).Nodup) (h : (k, v) ∈ l) : l.lookup k = some v := by
  induction l with
  | nil => cases h
  | cons a t ih =>
    simp only [List.map_cons, List.nodup_cons] at hn
    rcases List.mem_cons.mp h with h1 | h1
    · rw [← h1]
      simp [lookup_cons]
    · rw [lookup_cons, if_neg, ih hn.2 h1]
      intro hk
      exact hn.1 (by rw [hk]; exact List.mem_map_of_mem Prod.fst h1)

theorem lookup_eq_none_of_not_mem {β : Type} {l : List (String × β)} {k : String}
    (h : k ∉ l.map Prod.fst) : l.lookup k = none := by
  rcases ho : l.lookup k with _ | v
  · rfl
  · exact absurd ((lookup_isSome_iff l k).mp (by simp [ho])) h

theorem spreadInto_eq (base pairs : Rec)
    (hd : ∀ p ∈ pairs, p.1 ∉ keys base) (hn : (keys pairs).Nodup) :
    spreadInto base pairs = base ++ pairs := by
  unfold spreadInto
  have h := foldl_setProp_eq Prod.fst Prod.snd pairs base hd hn
  simpa using h

theorem createRow_eq (st : Schema) (opts : Options) (values : Rec)
    (hn : (structKeys st).Nodup) :
    createRow st opts values
      = (structKeys st).map (fun k => (k, createRowVal st opts values k)) := by
  unfold createRow
  have h := foldl_setProp_eq (fun k => k) (createRowVal st opts values) (structKeys st) []
    (by intro x _ hx; simp [keys] at hx) (by simpa using hn)
  simpa using h

theorem structureRow_eq (st : Schema) (raw : Rec)
    (hno : (outKeys st).Nodup) (hido : "id" ∉ outKeys st) :
    structureRow st raw
      = ("id", getProp raw "id")
        :: (structKeys st).map (fun k => (outKeyOf st k, getProp raw k)) := by
  unfold structureRow
  rw [foldl_setProp_eq (outKeyOf st) (getProp raw) (structKeys st) []
    (by intro x _ hx; simp [keys] at hx) (by simpa [outKeys] using hno)]
  rw [List.nil_append, spreadInto_eq]
  · rfl
  · intro p hp
    rcases List.mem_map.mp hp with ⟨k, hk, hpk⟩
    simp only [keys, List.map_cons, List.map_nil, List.mem_singleton]
    rw [← hpk]
    intro hc
    exact hido (by rw [← hc]; exact List.mem_map_of_mem (outKeyOf st) hk)
  · have : keys ((structKeys st).map (fun k => (outKeyOf st k, getProp raw k)))
        = outKeys st := by
      simp [keys, outKeys, List.map_map, Function.comp]
    rw [this]
    exact hno

theorem pushedRow_eq (st : Schema) (opts : Options) (idv : JSVal) (values : Rec)
    (hn : (structKeys st).Nodup) (hid : "id" ∉ structKeys st) :
    pushedRow st opts idv values
      = ("id", idv) :: (structKeys st).map (fun k => (k, createRowVal st opts values k)) := by
  unfold pushedRow
  rw [createRow_eq st opts values hn, spreadInto_eq]
  · rfl
  · intro p hp
    rcases List.mem_map.mp hp with ⟨k, hk, hpk⟩
    simp only [keys, List.map_cons, List.map_nil, List.mem_singleton]
    rw [← hpk]
    intro hc
    exact hid (by rw [← hc]; exact hk)
  · have : keys ((structKeys st).map (fun k => (k, createRowVal st opts values k)))
        = structKeys st := by
      simp [keys, List.map_map, Function.comp_def]
    rw [this]
    exact hn

theorem createRow_lookup (st : Schema) (opts : Options) (values : Rec)
    (f : String) (hf : f ∈ structKeys st) (hn : (structKeys st).Nodup) :
    (createRow st opts values).lookup f = some (createRowVal st opts values f) := by
  rw [createRow_eq st opts values hn]
  exact lookup_map_eq (fun k => k) (createRowVal st opts values) (structKeys st) f hf
    (by simpa using hn)

/-- Pointwise characterization of the coerced value of a declared field. -/
theorem createRowVal_char (st : Schema) (opts : Options) (values : Rec)
    (f : String) (d : FieldDesc) (hlk : st.lookup f = some d) :
    createRowVal st opts values f
      = if checkTypeDisabled opts then getProp values f
        else if typeOf (getProp values f) = d.type then getProp values f
        else d.default.getD vNull := by
  have hf : isField st f = true := by simp [isField, hlk]
  unfold createRowVal isCorrectType
  by_cases hc : checkTypeDisabled opts
  · rw [if_pos hc, if_pos hc, hf]
  · rw [if_neg hc, if_neg hc, hlk, hf]
    by_cases ht : typeOf (getProp values f) = d.type
    · simp [ht, hlk]
    · simp [ht, hlk]

theorem getProp_cons (a : String × JSVal) (l : Rec) (k : String) :
    getProp (a :: l) k = if a.1 = k then a.2 else getProp l k := by
  unfold getProp
  rw [lookup_cons]
  by_cases h : a.1 = k <;> simp [h]

theorem keys_jsonRT_subset (r : Rec) : keys (jsonRT r) ⊆ keys r := by
  intro k hk
  rcases List.mem_map.mp hk with ⟨p, hp, hpk⟩
  rw [← hpk]
  exact List.mem_map_of_mem Prod.fst (List.mem_of_mem_filter hp)

theorem getProp_jsonRT (r : Rec) (hn : (keys r).Nodup) (k : String) :
    getProp (jsonRT r) k = getProp r k := by
  induction r with
  | nil => rfl
  | cons a t ih =>
    simp only [keys, List.map_cons, List.nodup_cons] at hn
    unfold jsonRT
    rw [List.filter_cons]
    by_cases hv : a.2 ≠ vUndefined
    · rw [if_pos (by simpa using hv), getProp_cons, getProp_cons]
      by_cases hk : a.1 = k
      · rw [if_pos hk, if_pos hk]
      · rw [if_neg hk, if_neg hk]
        exact ih hn.2
    · rw [if_neg (by simpa using hv), getProp_cons]
      push_neg at hv
      by_cases hk : a.1 = k
      · rw [if_pos hk, hv]
        unfold getProp
        rw [lookup_eq_none_of_not_mem]
        · rfl
        · intro hmem
          exact hn.1 (by rw [hk]; exact keys_jsonRT_subset t hmem)
      · rw [if_neg hk]
        exact ih hn.2

theorem eq_keys_map_getProp (r : Rec) (hn : (keys r).Nodup) :
    r = (keys r).map (fun k => (k, getProp r k)) := by
  induction r with
  | nil => rfl
  | cons a t ih =>
    simp only [keys, List.map_cons, List.nodup_cons] at hn
    rw [show keys (a :: t) = a.1 :: keys t from rfl, List.map_cons]
    have h2 : ∀ k ∈ keys t, getProp (a :: t) k = getProp t k := by
      intro k hk
      rw [getProp_cons, if_neg]
      intro hc
      exact hn.1 (by rw [hc]; exact hk)
    congr 1
    · rw [getProp_cons, if_pos rfl]
    · rw [List.map_congr_left (fun k hk => by rw [h2 k hk])]
      exact ih hn.2

/-! ## Sorting lemmas -/

theorem sortInsert_perm (le : Rec → Rec → Bool) (a : Rec) (l : List Rec) :
    (sortInsert le a l).Perm (a :: l) := by
  induction l with
  | nil => exact List.Perm.refl _
  | cons b t ih =>
    unfold sortInsert
    split
    · exact List.Perm.refl _
    · exact (ih.cons b).trans (List.Perm.swap a b t)

theorem jsSortList_perm (le : Rec → Rec → Bool) (l : List Rec) :
    (jsSortList le l).Perm l := by
  induction l with
  | nil => exact List.Perm.refl _
  | cons a t ih =>
    exact (sortInsert_perm le a (jsSortList le t)).trans (ih.cons a)

theorem sortInsert_pairwise {P : Rec → Prop} {le : Rec → Rec → Bool}
    (htrans : ∀ x y z, P x → P y → P z →
      le x y = true → le y z = true → le x z = true)
    (htot : ∀ x y, P x → P y → le x y = true ∨ le y x = true)
    {a : Rec} {l : List Rec} (ha : P a) (hl : ∀ x ∈ l, P x)
    (h : l.Pairwise (fun x y => le x y = true)) :
    (sortInsert le a l).Pairwise (fun x y => le x y = true) := by
  induction l with
  | nil => simp [sortInsert]
  | cons b t ih =>
    rw [List.pairwise_cons] at h
    unfold sortInsert
    by_cases hab : le a b = true
    · rw [if_pos hab]
      refine List.Pairwise.cons ?_ (List.Pairwise.cons h.1 h.2)
      intro y hy
      rcases List.mem_cons.mp hy with rfl | hyt
      · exact hab
      · exact htrans a b y ha (hl b (List.mem_cons_self b t))
          (hl y (List.mem_cons_of_mem b hyt)) hab (h.1 y hyt)
    · rw [if_neg hab]
      refine List.Pairwise.cons ?_
        (ih (fun x hx => hl x (List.mem_cons_of_mem b hx)) h.2)
      intro y hy
      have hy' := (sortInsert_perm le a t).mem_iff.mp hy
      rcases List.mem_cons.mp hy' with hya | hyt
      · rcases htot a b ha (hl b (List.mem_cons_self b t)) with h1 | h1
        · exact absurd h1 hab
        · rw [hya]
          exact h1
      · exact h.1 y hyt

theorem jsSortList_pairwise {P : Rec → Prop} {le : Rec → Rec → Bool}
    (htrans : ∀ x y z, P x → P y → P z →
      le x y = true → le y z = true → le x z = true)
    (htot : ∀ x y, P x → P y → le x y = true ∨ le y x = true)
    {l : List Rec} (hl : ∀ x ∈ l, P x) :
    (jsSortList le l).Pairwise (fun x y => le x y = true) := by
  induction l with
  | nil => simp [jsSortList]
  | cons a t ih =>
    exact sortInsert_pairwise htrans htot (hl a (List.mem_cons_self a t))
      (fun x hx =>
        hl x (List.mem_cons_of_mem a ((jsSortList_perm le t).mem_iff.mp hx)))
      (ih (fun x hx => hl x (List.mem_cons_of_mem a hx)))

/-! ## Concrete fixtures -/

/-- Default options: `new Storage(path, structure)`. -/
def optsDefault : Options := ⟨none, none⟩

/-- Schema `{a: {type: 'number'}}`. -/
def schemaA : Schema := [("a", ⟨"number", none, none⟩)]

/-- A store over `schemaA` holding the single record `{id: 1, a: 5}`. -/
def storeA : Store := ⟨schemaA, optsDefault, [[("id", vNum 1), ("a", vNum 5)]]⟩

/-- Schema `{a: {type: 'number'}, b: {type: 'number', default: 0}}` (§8 of
the specification). -/
def schemaAB : Schema :=
  [("a", ⟨"number", none, none⟩), ("b", ⟨"number", some (vNum 0), none⟩)]

/-- A store over `schemaAB` holding the single record `{id: 1, a: 5, b: 0}`. -/
def storeAB : Store :=
  ⟨schemaAB, optsDefault, [[("id", vNum 1), ("a", vNum 5), ("b", vNum 0)]]⟩

/-- Schema `{name: {type: 'string', rename: 'username'}}`. -/
def schemaRename : Schema := [("name", ⟨"string", none, some "username"⟩)]

/-- "No two records share an id", ids compared with loose equality. -/
abbrev UniqueIds (l : List Rec) : Prop :=
  (l.map recId).Pairwise (fun a b => looseEq a b = false)

/-! ## Claim C1 -/

/-- C1: the claim says `set(id, values)` returns the store normally for
every values object, silently ignoring fields that fail the
type-correctness check.  The code instead throws a `TypeError` when
`values` contains a field name not declared in the schema and type
checking is enabled: `#isCorrectType` destructures
`this.structure[field]` (which is `undefined`) before consulting
`#isField`.  Evaluated at the failing input: schema `{a: number}`,
existing record `{id: 1, a: 5}`, call `set(1, {b: 1})` with default
options — the type check throws (modelled `none`) and `set` aborts with
the exception (`true`), instead of ignoring `b`. -/
theorem c1_set_throws_on_undeclared_field :
    isCorrectType schemaA optsDefault "b" (vNum 1) = none
    ∧ setF storeA (vNum 1) [("b", vNum 1)] [] = some (storeA, true) := by
  constructor
  · rfl
  · decide

/-! ## Claim C9 -/

/-- C9 counterexample: with `save.auto` set to the string `'0'` — not a
number, so the claim requires the 60-second default — `#saveAuto`
disables autosave, because the test `save?.auto == 0` uses loose
equality and `'0' == 0` is true. -/
theorem c9_counterexample :
    saveAutoF ⟨none, some ⟨some (vStr "0"), none⟩⟩ = .disabled
    ∧ typeOf (vStr "0") ≠ "number"
    ∧ AutosaveDecision.disabled ≠ .interval (60 * 1000) := by
  refine ⟨by decide, by decide, by decide⟩

/-- C9 amended: at construction a periodic save is scheduled with period
`save.auto` seconds when `save.auto` is a number other than zero, with
period 60 seconds when `save.auto` is absent or not a number — unless
its value is loosely equal to `0` (such as `'0'`, `false` or `''`), in
which case no periodic save is scheduled, exactly as for the number `0`
(the zero test is the loose comparison `save?.auto == 0`). -/
theorem c9_autosave_config (opts : Options) :
    (∀ n : Int, autoVal opts = vNum n → n ≠ 0 →
      saveAutoF opts = .interval (n * 1000))
    ∧ (autoVal opts = vNum 0 → saveAutoF opts = .disabled)
    ∧ (looseEq (autoVal opts) (vNum 0) = true → saveAutoF opts = .disabled)
    ∧ ((∀ n : Int, autoVal opts ≠ vNum n) →
        looseEq (autoVal opts) (vNum 0) = false →
        saveAutoF opts = .interval (60 * 1000)) := by
  refine ⟨?_, ?_, ?_, ?_⟩
  · intro n hv hn
    unfold saveAutoF
    rw [hv]
    rw [show looseEq (vNum n) (vNum 0) = false by
      simp [looseEq, primNum, hn]]
    simp
  · intro hv
    unfold saveAutoF
    rw [hv]
    decide
  · intro hv
    unfold saveAutoF
    rw [if_pos hv]
  · intro hnum hz
    unfold saveAutoF
    rw [hz]
    cases hv : autoVal opts with
    | vNum n => exact absurd hv (hnum n)
    | vStr s => rfl
    | vBool b => rfl
    | vNull => rfl
    | vUndefined => rfl

/-- C9 witness: `save.auto = 5` schedules a save every 5000 ms. -/
theorem c9_witness :
    saveAutoF ⟨none, some ⟨some (vNum 5), none⟩⟩ = .interval (5 * 1000) :=
  (c9_autosave_config _).1 5 rfl (by decide)

/-! ## Claim C2 -/

/-- C2 counterexample: with schema `{name: {type: 'string', rename:
'username'}}`, the record created by `add(1, {name: 'x'})` holds the
field under the original key `name`, not under the renamed key
`username` — `#createRow` does not apply renames (only load-time
`#structure` does), refuting the claim for records created by `add`. -/
theorem c2_counterexample :
    addF ⟨schemaRename, optsDefault, []⟩ (vNum 1) [("name", vStr "x")] []
      = some ⟨schemaRename, optsDefault, [[("id", vNum 1), ("name", vStr "x")]]⟩
    ∧ ([("id", vNum 1), ("name", vStr "x")] : Rec).lookup "username" = none
    ∧ ([("id", vNum 1), ("name", vStr "x")] : Rec).lookup "name" = some (vStr "x") := by
  refine ⟨by decide, by decide, by decide⟩

/-- C2 amended: records normalized at load time hold each schema field
under its renamed key, so their field set is exactly `{id}` plus the
schema's fields after rename; but records created by `add` (or by `set`
on a missing id) hold each field under its *original* key — the
coercion used there does not apply renames, so their field set is
`{id}` plus the schema's original field names. -/
theorem c2_rename_keys (st : Schema) (opts : Options) (raw values : Rec)
    (s : Store) (id : JSVal) (idv : JSVal) (draws : List Int)
    (hn : (structKeys st).Nodup) (hno : (outKeys st).Nodup)
    (hid : "id" ∉ structKeys st) (hido : "id" ∉ outKeys st) :
    keys (structureRow st raw) = "id" :: outKeys st
    ∧ keys (pushedRow st opts idv values) = "id" :: structKeys st
    ∧ (s.struct = st → s.opts = opts → getF s id = none → isNullish id = false →
        addF s id values draws
          = some { s with storage := s.storage ++ [pushedRow st opts id values] }) := by
  refine ⟨?_, ?_, ?_⟩
  · rw [structureRow_eq st raw hno hido]
    simp [keys, outKeys, List.map_map, Function.comp_def]
  · rw [pushedRow_eq st opts idv values hn hid]
    simp [keys, List.map_map, Function.comp_def]
  · intro h1 h2 h3 h4
    subst h1
    subst h2
    unfold addF resolveId
    rw [h3, h4]
    rfl

/-- C2 witness: for the rename schema, the load-normalized key set is
`[id, username]` while the `add`-created key set is `[id, name]`. -/
theorem c2_witness :
    ((structKeys schemaRename).Nodup ∧ (outKeys schemaRename).Nodup
      ∧ "id" ∉ structKeys schemaRename ∧ "id" ∉ outKeys schemaRename)
    ∧ keys (structureRow schemaRename [("id", vNum 1), ("name", vStr "x")])
        = "id" :: outKeys schemaRename
    ∧ keys (pushedRow schemaRename optsDefault (vNum 1) [("name", vStr "x")])
        = "id" :: structKeys schemaRename :=
  ⟨⟨by decide, by decide, by decide, by decide⟩,
    (c2_rename_keys schemaRename optsDefault [("id", vNum 1), ("name", vStr "x")]
      [("name", vStr "x")] ⟨schemaRename, optsDefault, []⟩ (vNum 1) (vNum 1) []
      (by decide) (by decide) (by decide) (by decide)).1,
    (c2_rename_keys schemaRename optsDefault [("id", vNum 1), ("name", vStr "x")]
      [("name", vStr "x")] ⟨schemaRename, optsDefault, []⟩ (vNum 1) (vNum 1) []
      (by decide) (by decide) (by decide) (by decide)).2.1⟩

/-! ## Claim C3 -/

/-- A store over the rename schema as it stands right after a load:
the single record keeps its field under the renamed key. -/
def storeRenameLoaded : Store :=
  ⟨schemaRename, optsDefault, [[("id", vNum 1), ("username", vStr "x")]]⟩

/-- C3 counterexample: with a rename in the schema, save-then-reload does
not reproduce the in-memory sequence: reload reads each field by its
*original* name, but `save` wrote the record under the renamed key, so
the value is lost (replaced by `undefined`). -/
theorem c3_counterexample :
    loadFromSave storeRenameLoaded ≠ storeRenameLoaded
    ∧ loadFromSave storeRenameLoaded
        = ⟨schemaRename, optsDefault, [[("id", vNum 1), ("username", vUndefined)]]⟩ := by
  refine ⟨by decide, by decide⟩

theorem structureRow_jsonRT (st : Schema) (r : Rec)
    (hnr : ∀ fd ∈ st, fd.2.rename = none)
    (hn : (structKeys st).Nodup) (hid : "id" ∉ structKeys st)
    (hkeys : keys r = "id" :: structKeys st) :
    structureRow st (jsonRT r) = r := by
  have houtkey : ∀ k, outKeyOf st k = k := by
    intro k
    unfold outKeyOf
    rcases hl : st.lookup k with _ | d
    · rfl
    · rw [Option.some_bind, hnr (k, d) (lookup_eq_some_mem hl)]
  have houtkeys : outKeys st = structKeys st := by
    unfold outKeys
    rw [List.map_congr_left (fun k _ => houtkey k)]
    exact List.map_id _
  have hrn : (keys r).Nodup := by
    rw [hkeys]
    exact List.nodup_cons.mpr ⟨hid, hn⟩
  rw [structureRow_eq st (jsonRT r) (by rw [houtkeys]; exact hn)
    (by rw [houtkeys]; exact hid)]
  have hg : ∀ k, getProp (jsonRT r) k = getProp r k := getProp_jsonRT r hrn
  rw [List.map_congr_left (fun k _ => by rw [houtkey k, hg k] :
    ∀ k ∈ structKeys st,
      (outKeyOf st k, getProp (jsonRT r) k) = (k, getProp r k))]
  rw [hg "id"]
  conv_rhs => rw [eq_keys_map_getProp r hrn, hkeys, List.map_cons]

/-- C3 amended: for a store whose schema declares no rename (and whose
records have the normalized shape `{id}` followed by the schema fields),
`save()` followed by re-loading from the same path with the same schema
and options yields exactly the pre-save in-memory sequence; when a field
declares a rename, the round trip instead replaces that field's value by
`undefined`, because reload looks the field up under its original name
while the file holds it under the renamed key. -/
theorem c3_round_trip (s : Store)
    (hnr : ∀ fd ∈ s.struct, fd.2.rename = none)
    (hn : (structKeys s.struct).Nodup)
    (hid : "id" ∉ structKeys s.struct)
    (hs : ∀ r ∈ s.storage, keys r = "id" :: structKeys s.struct) :
    loadFromSave s = s := by
  unfold loadFromSave
  have h : s.storage.map (fun r => structureRow s.struct (jsonRT r)) = s.storage := by
    calc s.storage.map (fun r => structureRow s.struct (jsonRT r))
        = s.storage.map id :=
          List.map_congr_left
            (fun r hr => structureRow_jsonRT s.struct r hnr hn hid (hs r hr))
      _ = s.storage := List.map_id _
  rw [h]

/-- C3 witness: the rename-free two-field store round-trips unchanged. -/
theorem c3_witness :
    ((∀ fd ∈ storeAB.struct, fd.2.rename = none)
      ∧ (structKeys storeAB.struct).Nodup
      ∧ "id" ∉ structKeys storeAB.struct
      ∧ (∀ r ∈ storeAB.storage, keys r = "id" :: structKeys storeAB.struct))
    ∧ loadFromSave storeAB = storeAB :=
  ⟨⟨by decide, by decide, by decide, by decide⟩,
    c3_round_trip storeAB (by decide) (by decide) (by decide) (by decide)⟩

/-! ## Claim C4 -/

/-- C4 counterexample: with type checking *disabled* and an input that
supplies no value for field `b` (declared `{type: 'number', default:
0}`), coercion stores `undefined` instead of the declared default:
`#isCorrectType` then only tests field membership, which holds, so
`values[current]` (i.e. `undefined`) is taken and the default is never
reached. -/
theorem c4_counterexample :
    createRow [("b", ⟨"number", some (vNum 0), none⟩)] ⟨some (vBool false), none⟩ []
      = [("b", vUndefined)]
    ∧ (createRow [("b", ⟨"number", some (vNum 0), none⟩)] ⟨some (vBool false), none⟩ []).lookup "b"
        ≠ some (vNum 0) := by
  refine ⟨by decide, by decide⟩

/-- C4 amended: for every schema and raw input, the coerced record assigns
to each declared field: when type-checking is enabled, the supplied value
if its runtime type equals the declared type, otherwise the declared
default if present, else null; when type-checking is disabled by the
checkType option, always the supplied value itself — `undefined` when the
input does not supply the field — so defaults are never applied in that
mode. -/
theorem c4_coercion_contract (st : Schema) (opts : Options) (values : Rec)
    (f : String) (d : FieldDesc)
    (hn : (structKeys st).Nodup) (hmem : (f, d) ∈ st) :
    (createRow st opts values).lookup f
      = some (if checkTypeDisabled opts then getProp values f
          else if typeOf (getProp values f) = d.type then getProp values f
          else d.default.getD vNull) := by
  have hlk : st.lookup f = some d := lookup_of_mem_nodup hn hmem
  rw [createRow_lookup st opts values f (List.mem_map_of_mem Prod.fst hmem) hn,
    createRowVal_char st opts values f d hlk]

/-- C4 witness: with type checking enabled, field `a` takes the supplied
`7` and field `b` falls back to its declared default `0`. -/
theorem c4_witness :
    ((structKeys schemaAB).Nodup
      ∧ ("b", (⟨"number", some (vNum 0), none⟩ : FieldDesc)) ∈ schemaAB)
    ∧ (createRow schemaAB optsDefault [("a", vNum 7)]).lookup "b"
        = some (if checkTypeDisabled optsDefault then getProp [("a", vNum 7)] "b"
            else if typeOf (getProp [("a", vNum 7)] "b") = "number"
              then getProp [("a", vNum 7)] "b"
            else (some (vNum 0)).getD vNull) :=
  ⟨⟨by decide, by decide⟩,
    c4_coercion_contract schemaAB optsDefault [("a", vNum 7)] "b"
      ⟨"number", some (vNum 0), none⟩ (by decide) (by decide)⟩

/-! ## Claim C8 -/

/-- C8: coercion is idempotent — coercing a record that is itself the
output of coercion yields the same record.  (The claim's premise that
every declared default matches its declared type is carried but is not
even needed: when a field held its default, the second pass either
accepts it or falls back to that very same default.) -/
theorem c8_coercion_idempotent (st : Schema) (opts : Options) (values : Rec)
    (hn : (structKeys st).Nodup)
    (_hdef : ∀ fd ∈ st, ∀ dv, fd.2.default = some dv → typeOf dv = fd.2.type) :
    createRow st opts (createRow st opts values) = createRow st opts values := by
  rw [createRow_eq st opts values hn]
  rw [createRow_eq st opts _ hn]
  refine List.map_congr_left ?_
  intro k hk
  have hsome : (st.lookup k).isSome := (lookup_isSome_iff st k).mpr hk
  rcases hl : st.lookup k with _ | d
  · rw [hl] at hsome
    simp at hsome
  · have hX : getProp ((structKeys st).map (fun k => (k, createRowVal st opts values k))) k
        = createRowVal st opts values k := by
      unfold getProp
      rw [lookup_map_eq (fun k => k) (createRowVal st opts values) (structKeys st) k hk
        (by simpa using hn)]
      rfl
    have hchar := createRowVal_char st opts values k d hl
    have hchar2 := createRowVal_char st opts
      ((structKeys st).map (fun k => (k, createRowVal st opts values k))) k d hl
    have hval : createRowVal st opts
        ((structKeys st).map (fun k => (k, createRowVal st opts values k))) k
        = createRowVal st opts values k := by
      rw [hchar2, hX]
      by_cases hc : checkTypeDisabled opts
      · rw [if_pos hc]
      · rw [if_neg hc]
        by_cases ht : typeOf (createRowVal st opts values k) = d.type
        · rw [if_pos ht]
        · rw [if_neg ht, hchar, if_neg hc]
          by_cases hv : typeOf (getProp values k) = d.type
          · exfalso
            apply ht
            rw [hchar, if_neg hc, if_pos hv, hv]
          · rw [if_neg hv]
    rw [hval]

/-- C8 witness: over the two-field schema the coercion of `{a: 7}` is a
fixed point of coercion. -/
theorem c8_witness :
    ((structKeys schemaAB).Nodup
      ∧ (∀ fd ∈ schemaAB, ∀ dv, fd.2.default = some dv → typeOf dv = fd.2.type))
    ∧ createRow schemaAB optsDefault (createRow schemaAB optsDefault [("a", vNum 7)])
        = createRow schemaAB optsDefault [("a", vNum 7)] :=
  ⟨⟨by decide, by decide⟩,
    c8_coercion_idempotent schemaAB optsDefault [("a", vNum 7)] (by decide) (by decide)⟩

/-! ## Claim C5 -/

theorem applyEntries_lookup_not_valid (st : Schema) (opts : Options) (r values : Rec)
    (k : String)
    (hk : ∀ p ∈ values, p.1 = k → isCorrectType st opts k p.2 ≠ some true) :
    ((applyEntries st opts r values).1).lookup k = r.lookup k := by
  induction values generalizing r with
  | nil => rfl
  | cons p rest ih =>
    rcases p with ⟨f, v⟩
    rcases htc : isCorrectType st opts f v with _ | b
    · simp [applyEntries, htc]
    · cases b
      · simp only [applyEntries, htc]
        exact ih r (fun q hq hq1 => hk q (List.mem_cons_of_mem _ hq) hq1)
      · simp only [applyEntries, htc]
        have hfk : k ≠ f := by
          intro hf
          apply hk (f, v) (List.mem_cons_self _ _) hf.symm
          rw [← hf] at htc
          exact htc
        rw [ih (setProp r f v) (fun q hq hq1 => hk q (List.mem_cons_of_mem _ hq) hq1)]
        exact lookup_setProp_ne r f k v hfk

theorem applyEntries_no_throw (st : Schema) (opts : Options) (r values : Rec)
    (h : (applyEntries st opts r values).2 = false) :
    (applyEntries st opts r values).1
      = values.foldl (fun acc p =>
          if isCorrectType st opts p.1 p.2 = some true then setProp acc p.1 p.2 else acc)
          r := by
  induction values generalizing r with
  | nil => rfl
  | cons p rest ih =>
    rcases p with ⟨f, v⟩
    rcases htc : isCorrectType st opts f v with _ | b
    · rw [show applyEntries st opts r ((f, v) :: rest) = (r, true) by
        simp [applyEntries, htc]] at h
      cases h
    · cases b
      · simp only [applyEntries, htc] at h ⊢
        rw [List.foldl_cons, if_neg (by simp [htc]), ih r h]
      · simp only [applyEntries, htc] at h ⊢
        rw [List.foldl_cons, if_pos (by simp [htc]), ih (setProp r f v) h]

/-- C5: partial update.  For an existing record id, `set(id, values)`
replaces only the record at the matching index: there is a replacement
row `r'` (and a thrown-or-not flag) such that every other record is
untouched (`List.set`), every field with no type-correct entry in
`values` keeps its old value — in particular unspecified fields are
never reset to defaults — and, when no exception occurred, `r'` is
exactly the old record overwritten by the type-correct entries of
`values` in order.  When no record with the id exists, `set` behaves
exactly like `add` (full coercion with defaults). -/
theorem c5_set_partial_update (s : Store) (id : JSVal) (values : Rec) (draws : List Int) :
    (∀ r, getF s id = some r →
      ∃ r' threw,
        setF s id values draws
          = some ({ s with storage :=
              s.storage.set (s.storage.findIdx (fun row => looseEq (recId row) id)) r' },
              threw)
        ∧ (∀ k, (∀ p ∈ values, p.1 = k →
              isCorrectType s.struct s.opts k p.2 ≠ some true) →
            r'.lookup k = r.lookup k)
        ∧ (threw = false →
            r' = values.foldl
              (fun acc p =>
                if isCorrectType s.struct s.opts p.1 p.2 = some true
                then setProp acc p.1 p.2 else acc) r))
    ∧ (getF s id = none →
        setF s id values draws = (addF s id values draws).map (fun t => (t, false))) := by
  constructor
  · intro r hr
    have hbase : s.storage.getD (s.storage.findIdx (fun row => looseEq (recId row) id)) []
        = r := find?_getD_findIdx _ s.storage r [] hr
    refine ⟨(applyEntries s.struct s.opts r values).1,
      (applyEntries s.struct s.opts r values).2, ?_, ?_, ?_⟩
    · unfold setF
      rw [hr]
      simp only [Option.isSome_some, if_true]
      rw [hbase]
    · intro k hk
      exact applyEntries_lookup_not_valid s.struct s.opts r values k hk
    · intro ht
      exact applyEntries_no_throw s.struct s.opts r values ht
  · intro h0
    unfold setF addF
    rw [h0]
    simp only [Option.isSome_none, Bool.false_eq_true, if_false]
    rcases hres : resolveId s id draws with _ | idv
    · rfl
    · rfl

/-- C5 witness: on the §8 store, `set(1, {a: 10})` updates `a` in place
and leaves `b` (and `id`) untouched. -/
theorem c5_witness :
    (getF storeAB (vNum 1) = some [("id", vNum 1), ("a", vNum 5), ("b", vNum 0)])
    ∧ (∃ r' threw,
        setF storeAB (vNum 1) [("a", vNum 10)] []
          = some ({ storeAB with storage := storeAB.storage.set (storeAB.storage.findIdx (fun row => looseEq (recId row) (vNum 1))) r' },
              threw)
        ∧ (∀ k, (∀ p ∈ ([("a", vNum 10)] : Rec), p.1 = k →
              isCorrectType storeAB.struct storeAB.opts k p.2 ≠ some true) →
            r'.lookup k = ([("id", vNum 1), ("a", vNum 5), ("b", vNum 0)] : Rec).lookup k)
        ∧ (threw = false →
            r' = ([("a", vNum 10)] : Rec).foldl
              (fun acc p =>
                if isCorrectType storeAB.struct storeAB.opts p.1 p.2 = some true
                then setProp acc p.1 p.2 else acc)
                [("id", vNum 1), ("a", vNum 5), ("b", vNum 0)])) :=
  ⟨by decide,
    (c5_set_partial_update storeAB (vNum 1) [("a", vNum 10)] []).1
      [("id", vNum 1), ("a", vNum 5), ("b", vNum 0)] (by decide)⟩

/-! ## Claim C6 -/

/-- One mutation call of the uniqueness claim: `add(id, values)` or
`set(id, values)`, with the random draws its id generation may consume. -/
inductive Op where
  | opAdd (id : JSVal) (values : Rec) (draws : List Int)
  | opSet (id : JSVal) (values : Rec) (draws : List Int)

/-- Run one mutation call (the final store of `set`, throwing or not,
since the exception leaves the mutated store behind). -/
def runOp (s : Store) : Op → Option Store
  | .opAdd id values draws => addF s id values draws
  | .opSet id values draws => (setF s id values draws).map Prod.fst

/-- Run a finite sequence of mutation calls. -/
def runOps : Store → List Op → Option Store
  | s, [] => some s
  | s, op :: ops =>
    match runOp s op with
    | none => none
    | some s1 => runOps s1 ops

theorem isCorrectType_valid_mem (st : Schema) (opts : Options) (f : String) (v : JSVal)
    (h : isCorrectType st opts f v = some true) : f ∈ structKeys st := by
  unfold isCorrectType at h
  by_cases hc : checkTypeDisabled opts
  · rw [if_pos hc] at h
    exact (lookup_isSome_iff st f).mp (by simpa [isField] using h)
  · rw [if_neg hc] at h
    rcases hl : st.lookup f with _ | d
    · rw [hl] at h
      cases h
    · exact (lookup_isSome_iff st f).mp (by simp [hl])

theorem recId_setProp_ne (r : Rec) (f : String) (v : JSVal) (h : f ≠ "id") :
    recId (setProp r f v) = recId r := by
  unfold recId getProp
  rw [lookup_setProp_ne r f "id" v (Ne.symm h)]

theorem recId_applyEntries (st : Schema) (opts : Options) (r values : Rec)
    (hid : "id" ∉ structKeys st) :
    recId ((applyEntries st opts r values).1) = recId r := by
  induction values generalizing r with
  | nil => rfl
  | cons p rest ih =>
    rcases p with ⟨f, v⟩
    rcases htc : isCorrectType st opts f v with _ | b
    · simp [applyEntries, htc]
    · cases b
      · simp only [applyEntries, htc]
        exact ih r
      · simp only [applyEntries, htc]
        rw [ih (setProp r f v)]
        exact recId_setProp_ne r f v
          (fun hf => hid (hf ▸ isCorrectType_valid_mem st opts f v htc))

theorem keys_foldl_setProp_subset {α : Type} (keyOf : α → String) (valOf : α → JSVal)
    (l : List α) (acc : Rec) :
    keys (l.foldl (fun prev x => setProp prev (keyOf x) (valOf x)) acc)
      ⊆ keys acc ++ l.map keyOf := by
  induction l generalizing acc with
  | nil => simp
  | cons a t ih =>
    simp only [List.foldl_cons]
    intro k hk
    have := ih (setProp acc (keyOf a) (valOf a)) hk
    rw [keys_setProp] at this
    rcases List.mem_append.mp this with h1 | h1
    · split at h1
      · exact List.mem_append.mpr (Or.inl h1)
      · rcases List.mem_append.mp h1 with h2 | h2
        · exact List.mem_append.mpr (Or.inl h2)
        · simp only [List.mem_singleton] at h2
          simp [h2]
    · simp only [List.map_cons]
      rcases List.mem_append.mp (List.mem_append.mpr (Or.inr h1)) with _ | _
      · exact List.mem_append.mpr (Or.inl (by assumption))
      · have h3 : k ∈ t.map keyOf := by assumption
        exact List.mem_append.mpr (Or.inr (List.mem_cons_of_mem _ h3))

theorem keys_createRow_subset (st : Schema) (opts : Options) (values : Rec) :
    keys (createRow st opts values) ⊆ structKeys st := by
  intro k hk
  have := keys_foldl_setProp_subset (fun k => k) (createRowVal st opts values)
    (structKeys st) [] hk
  simpa [keys] using this

theorem getProp_spreadInto_not_mem (base pairs : Rec) (k : String)
    (hk : k ∉ keys pairs) :
    getProp (spreadInto base pairs) k = getProp base k := by
  induction pairs generalizing base with
  | nil => rfl
  | cons p rest ih =>
    simp only [keys, List.map_cons, List.mem_cons, not_or] at hk
    unfold spreadInto
    rw [List.foldl_cons]
    have := ih (setProp base p.1 p.2) hk.2
    unfold spreadInto at this
    rw [this]
    unfold getProp
    rw [lookup_setProp_ne base p.1 k p.2 hk.1]

theorem recId_pushedRow (st : Schema) (opts : Options) (idv : JSVal) (values : Rec)
    (hid : "id" ∉ structKeys st) :
    recId (pushedRow st opts idv values) = idv := by
  unfold pushedRow recId
  rw [getProp_spreadInto_not_mem]
  · rfl
  · exact fun h => hid (keys_createRow_subset st opts values h)

theorem getF_eq_none_iff (s : Store) (id : JSVal) :
    getF s id = none ↔ ∀ r ∈ s.storage, looseEq (recId r) id = false := by
  unfold getF
  rw [List.find?_eq_none]
  constructor
  · intro h r hr
    exact Bool.not_eq_true _ ▸ h r hr
  · intro h r hr
    rw [h r hr]
    simp

theorem generateID_fresh (s : Store) (draws : List Int) (d : Int)
    (h : generateID s draws = some d) : getF s (vNum d) = none := by
  induction draws with
  | nil => cases h
  | cons d0 rest ih =>
    unfold generateID at h
    by_cases h0 : (getF s (vNum d0)).isSome
    · rw [if_pos h0] at h
      exact ih h
    · rw [if_neg h0] at h
      cases h
      exact Option.not_isSome_iff_eq_none.mp h0

theorem uniqueIds_append (l : List Rec) (row : Rec) (idv : JSVal)
    (hu : UniqueIds l) (hrow : recId row = idv)
    (hfresh : ∀ r ∈ l, looseEq (recId r) idv = false) :
    UniqueIds (l ++ [row]) := by
  unfold UniqueIds at hu ⊢
  rw [List.map_append, List.map_cons, List.map_nil, List.pairwise_append]
  refine ⟨hu, List.pairwise_singleton _ _, ?_⟩
  intro a ha b hb
  rcases List.mem_map.mp ha with ⟨r, hr, hra⟩
  simp only [List.mem_singleton] at hb
  rw [← hra, hb, hrow]
  exact hfresh r hr

theorem uniqueIds_set (l : List Rec) (i : Nat) (r' : Rec)
    (hi : i < l.length) (hr : recId r' = recId (l.getD i []))
    (hu : UniqueIds l) : UniqueIds (l.set i r') := by
  unfold UniqueIds at hu ⊢
  induction l generalizing i with
  | nil => simp at hi
  | cons a t ih =>
    cases i with
    | zero =>
      rw [List.set_cons_zero, List.map_cons]
      rw [List.getD_cons_zero] at hr
      rw [hr]
      exact hu
    | succ i =>
      rw [List.set_cons_succ, List.map_cons]
      rw [List.getD_cons_succ] at hr
      rw [List.map_cons, List.pairwise_cons] at hu
      refine List.pairwise_cons.mpr ⟨?_, ?_⟩
      · intro b hb
        rcases List.mem_map.mp hb with ⟨x, hx, hxb⟩
        rcases List.mem_or_eq_of_mem_set hx with h1 | h1
        · exact hxb ▸ hu.1 (recId x) (List.mem_map_of_mem recId h1)
        · rw [← hxb, h1, hr]
          have hit : i < t.length := Nat.succ_lt_succ_iff.mp hi
          rw [List.getD_eq_getElem t [] hit]
          exact hu.1 (recId t[i]) (List.mem_map_of_mem recId (List.getElem_mem hit))
      · exact ih i (Nat.succ_lt_succ_iff.mp hi) hr hu.2

theorem push_unique (s : Store) (id idv : JSVal) (values : Rec) (draws : List Int)
    (hid : "id" ∉ structKeys s.struct) (hu : UniqueIds s.storage)
    (h0 : getF s id = none) (hres : resolveId s id draws = some idv) :
    UniqueIds (s.storage ++ [pushedRow s.struct s.opts idv values]) := by
  have hfresh : ∀ r ∈ s.storage, looseEq (recId r) idv = false := by
    unfold resolveId at hres
    by_cases hn : isNullish id = true
    · rw [if_pos hn] at hres
      rcases Option.map_eq_some'.mp hres with ⟨d, hd, hdv⟩
      rw [← hdv]
      exact (getF_eq_none_iff s (vNum d)).mp (generateID_fresh s draws d hd)
    · rw [if_neg hn] at hres
      cases hres
      exact (getF_eq_none_iff s id).mp h0
  exact uniqueIds_append s.storage _ idv hu
    (recId_pushedRow s.struct s.opts idv values hid) hfresh

theorem addF_preserves (s : Store) (id : JSVal) (values : Rec) (draws : List Int)
    (s1 : Store) (hid : "id" ∉ structKeys s.struct) (hu : UniqueIds s.storage)
    (h : addF s id values draws = some s1) :
    s1.struct = s.struct ∧ UniqueIds s1.storage := by
  unfold addF at h
  by_cases h0 : (getF s id).isSome
  · rw [if_pos h0] at h
    cases h
    exact ⟨rfl, hu⟩
  · rw [if_neg h0] at h
    rcases hres : resolveId s id draws with _ | idv
    · rw [hres] at h
      cases h
    · rw [hres] at h
      cases h
      exact ⟨rfl, push_unique s id idv values draws hid hu
        (Option.not_isSome_iff_eq_none.mp h0) hres⟩

theorem find?_findIdx_lt (p : Rec → Bool) (l : List Rec) (r : Rec)
    (h : l.find? p = some r) : l.findIdx p < l.length :=
  List.findIdx_lt_length_of_exists
    ⟨r, List.mem_of_find?_eq_some h, List.find?_some h⟩

theorem setF_preserves (s : Store) (id : JSVal) (values : Rec) (draws : List Int)
    (s1 : Store) (thr : Bool)
    (hid : "id" ∉ structKeys s.struct) (hu : UniqueIds s.storage)
    (h : setF s id values draws = some (s1, thr)) :
    s1.struct = s.struct ∧ UniqueIds s1.storage := by
  unfold setF at h
  by_cases h0 : (getF s id).isSome
  · rw [if_pos h0] at h
    simp only [Option.some_inj, Prod.mk.injEq] at h
    rcases h with ⟨h1, _⟩
    rw [← h1]
    refine ⟨rfl, ?_⟩
    rcases Option.isSome_iff_exists.mp h0 with ⟨r, hr⟩
    refine uniqueIds_set s.storage _ _ ?_ ?_ hu
    · exact find?_findIdx_lt _ s.storage r hr
    · exact recId_applyEntries s.struct s.opts _ values hid
  · rw [if_neg h0] at h
    rcases hres : resolveId s id draws with _ | idv
    · rw [hres] at h
      cases h
    · rw [hres] at h
      simp only [Option.some_inj, Prod.mk.injEq] at h
      rcases h with ⟨h1, _⟩
      rw [← h1]
      exact ⟨rfl, push_unique s id idv values draws hid hu
        (Option.not_isSome_iff_eq_none.mp h0) hres⟩

/-- C6 counterexample: if the schema itself declares a field named `id`,
`add` can duplicate an existing identifier — `add(5, {id: 7})` coerces
`{id: 7}` and the spread `{id: 5, ...row}` overwrites the chosen id, so
a second record with id `7` is appended next to the existing one. -/
theorem c6_counterexample :
    UniqueIds ([[("id", vNum 7)]] : List Rec)
    ∧ addF ⟨[("id", ⟨"number", none, none⟩)], optsDefault, [[("id", vNum 7)]]⟩
        (vNum 5) [("id", vNum 7)] []
      = some ⟨[("id", ⟨"number", none, none⟩)], optsDefault,
          [[("id", vNum 7)], [("id", vNum 7)]]⟩
    ∧ ¬ UniqueIds ([[("id", vNum 7)], [("id", vNum 7)]] : List Rec) := by
  refine ⟨by decide, by decide, by decide⟩

/-- C6 amended: provided the schema does not declare a field literally
named `id`, then starting from a store with pairwise distinct record ids
(loose equality), every finite sequence of `add`/`set` calls that
completes leaves the ids pairwise distinct. -/
theorem c6_id_uniqueness (st : Schema) (hid : "id" ∉ structKeys st) :
    ∀ ops : List Op, ∀ s s' : Store, s.struct = st → UniqueIds s.storage →
      runOps s ops = some s' → UniqueIds s'.storage := by
  intro ops
  induction ops with
  | nil =>
    intro s s' _ hu h
    cases h
    exact hu
  | cons op rest ih =>
    intro s s' hst hu h
    unfold runOps at h
    rcases hop : runOp s op with _ | s1
    · rw [hop] at h
      cases h
    · rw [hop] at h
      have hids : "id" ∉ structKeys s.struct := by
        rw [hst]
        exact hid
      have hstep : s1.struct = s.struct ∧ UniqueIds s1.storage := by
        rcases op with ⟨oid, ovalues, odraws⟩ | ⟨oid, ovalues, odraws⟩
        · exact addF_preserves s oid ovalues odraws s1 hids hu hop
        · unfold runOp at hop
          rcases Option.map_eq_some'.mp hop with ⟨⟨t, thr⟩, ht, hts⟩
          cases hts
          exact setF_preserves s oid ovalues odraws t thr hids hu ht
      exact ih s1 s' (hstep.1.trans hst) hstep.2 h

/-- C6 witness: from the empty two-field store, `add(1, {})`, `set(1,
{a: 2})`, `add(1, {})` again and `set(3, {b: 9})` complete and leave
distinct ids. -/
theorem c6_witness :
    ("id" ∉ structKeys schemaAB
      ∧ UniqueIds (([] : List Rec))
      ∧ runOps ⟨schemaAB, optsDefault, []⟩
          [Op.opAdd (vNum 1) [] [], Op.opSet (vNum 1) [("a", vNum 2)] [],
            Op.opAdd (vNum 1) [] [], Op.opSet (vNum 3) [("b", vNum 9)] []]
        = some ⟨schemaAB, optsDefault,
            [[("id", vNum 1), ("a", vNum 2), ("b", vNum 0)],
              [("id", vNum 3), ("a", vNull), ("b", vNum 9)]]⟩)
    ∧ UniqueIds
        ([[("id", vNum 1), ("a", vNum 2), ("b", vNum 0)],
          [("id", vNum 3), ("a", vNull), ("b", vNum 9)]] : List Rec) :=
  ⟨⟨by decide, by decide, by decide⟩,
    c6_id_uniqueness schemaAB (by decide)
      [Op.opAdd (vNum 1) [] [], Op.opSet (vNum 1) [("a", vNum 2)] [],
        Op.opAdd (vNum 1) [] [], Op.opSet (vNum 3) [("b", vNum 9)] []]
      ⟨schemaAB, optsDefault, []⟩
      ⟨schemaAB, optsDefault,
        [[("id", vNum 1), ("a", vNum 2), ("b", vNum 0)],
          [("id", vNum 3), ("a", vNull), ("b", vNum 9)]]⟩
      rfl (by decide) (by decide)⟩

/-! ## Claims C7 and C10 -/

/-- The record array `[{id:1,a:3},{id:2,a:9},{id:3,a:1}]` of §8. -/
def store7 : Store :=
  ⟨schemaA, optsDefault,
    [[("id", vNum 1), ("a", vNum 3)], [("id", vNum 2), ("a", vNum 9)],
      [("id", vNum 3), ("a", vNum 1)]]⟩

theorem jsSub_num (x y : Int) : jsSub (vNum x) (vNum y) = x - y := rfl

theorem sortCmp_asc (f : String) (a b : Rec) :
    sortCmp (some f) (some "ascending") a b = jsSub (getProp a f) (getProp b f) := by
  simp [sortCmp]

theorem sortCmp_desc (f : String) (a b : Rec) :
    sortCmp (some f) (some "descending") a b = jsSub (getProp b f) (getProp a f) := by
  simp [sortCmp]

theorem sortF_perm (l : List Rec) (f o : Option String) : (sortF l f o).Perm l :=
  jsSortList_perm _ l

/-- On records whose sort field holds numbers, ascending `#sort` orders by
the subtraction comparator. -/
theorem sortF_asc_sorted (l : List Rec) (fld : String)
    (h : ∀ r ∈ l, ∃ n, getProp r fld = vNum n) :
    (sortF l (some fld) (some "ascending")).Pairwise
      (fun a b => jsSub (getProp a fld) (getProp b fld) ≤ 0) := by
  have htrans : ∀ x y z : Rec, (∃ n, getProp x fld = vNum n) →
      (∃ n, getProp y fld = vNum n) → (∃ n, getProp z fld = vNum n) →
      decide (sortCmp (some fld) (some "ascending") x y ≤ 0) = true →
      decide (sortCmp (some fld) (some "ascending") y z ≤ 0) = true →
      decide (sortCmp (some fld) (some "ascending") x z ≤ 0) = true := by
    rintro x y z ⟨nx, hx⟩ ⟨ny, hy⟩ ⟨nz, hz⟩ h1 h2
    have h1' := of_decide_eq_true h1
    have h2' := of_decide_eq_true h2
    rw [sortCmp_asc, hx, hy, jsSub_num] at h1'
    rw [sortCmp_asc, hy, hz, jsSub_num] at h2'
    apply decide_eq_true
    rw [sortCmp_asc, hx, hz, jsSub_num]
    omega
  have htot : ∀ x y : Rec, (∃ n, getProp x fld = vNum n) →
      (∃ n, getProp y fld = vNum n) →
      decide (sortCmp (some fld) (some "ascending") x y ≤ 0) = true
        ∨ decide (sortCmp (some fld) (some "ascending") y x ≤ 0) = true := by
    rintro x y ⟨nx, hx⟩ ⟨ny, hy⟩
    rcases Int.le_total nx ny with hle | hle
    · left
      apply decide_eq_true
      rw [sortCmp_asc, hx, hy, jsSub_num]
      omega
    · right
      apply decide_eq_true
      rw [sortCmp_asc, hy, hx, jsSub_num]
      omega
  have hp := @jsSortList_pairwise (fun r => ∃ n, getProp r fld = vNum n)
    (fun a b => decide (sortCmp (some fld) (some "ascending") a b ≤ 0)) htrans htot l h
  refine hp.imp ?_
  intro a b hab
  have hd := of_decide_eq_true hab
  rwa [sortCmp_asc] at hd

/-- On records whose sort field holds numbers, descending `#sort` orders by
the flipped subtraction comparator. -/
theorem sortF_desc_sorted (l : List Rec) (fld : String)
    (h : ∀ r ∈ l, ∃ n, getProp r fld = vNum n) :
    (sortF l (some fld) (some "descending")).Pairwise
      (fun a b => jsSub (getProp b fld) (getProp a fld) ≤ 0) := by
  have htrans : ∀ x y z : Rec, (∃ n, getProp x fld = vNum n) →
      (∃ n, getProp y fld = vNum n) → (∃ n, getProp z fld = vNum n) →
      decide (sortCmp (some fld) (some "descending") x y ≤ 0) = true →
      decide (sortCmp (some fld) (some "descending") y z ≤ 0) = true →
      decide (sortCmp (some fld) (some "descending") x z ≤ 0) = true := by
    rintro x y z ⟨nx, hx⟩ ⟨ny, hy⟩ ⟨nz, hz⟩ h1 h2
    have h1' := of_decide_eq_true h1
    have h2' := of_decide_eq_true h2
    rw [sortCmp_desc, hx, hy, jsSub_num] at h1'
    rw [sortCmp_desc, hy, hz, jsSub_num] at h2'
    apply decide_eq_true
    rw [sortCmp_desc, hx, hz, jsSub_num]
    omega
  have htot : ∀ x y : Rec, (∃ n, getProp x fld = vNum n) →
      (∃ n, getProp y fld = vNum n) →
      decide (sortCmp (some fld) (some "descending") x y ≤ 0) = true
        ∨ decide (sortCmp (some fld) (some "descending") y x ≤ 0) = true := by
    rintro x y ⟨nx, hx⟩ ⟨ny, hy⟩
    rcases Int.le_total ny nx with hle | hle
    · left
      apply decide_eq_true
      rw [sortCmp_desc, hx, hy, jsSub_num]
      omega
    · right
      apply decide_eq_true
      rw [sortCmp_desc, hy, hx, jsSub_num]
      omega
  have hp := @jsSortList_pairwise (fun r => ∃ n, getProp r fld = vNum n)
    (fun a b => decide (sortCmp (some fld) (some "descending") a b ≤ 0)) htrans htot l h
  refine hp.imp ?_
  intro a b hab
  have hd := of_decide_eq_true hab
  rwa [sortCmp_desc] at hd

/-- C7: sort policy of `getAll`/`getFew`.  On numeric sort fields,
`getAll({field, order:'ascending'})` returns a permutation of the store
pairwise ordered by the comparator `a[field] - b[field] ≤ 0`, and
`'descending'` by `b[field] - a[field] ≤ 0`; `getFew` sorts its filtered
result with the same policy; omitted sort options default to field `id`
ascending; and the §8 example sorts to `[id:2, id:1, id:3]`. -/
theorem c7_sort_policy (s : Store) (fld : String) (v : JSVal)
    (h : ∀ r ∈ s.storage, ∃ n, getProp r fld = vNum n) :
    ((getAllF s (some fld) (some "ascending")).1.Perm s.storage
      ∧ (getAllF s (some fld) (some "ascending")).1.Pairwise
          (fun a b => jsSub (getProp a fld) (getProp b fld) ≤ 0))
    ∧ ((getAllF s (some fld) (some "descending")).1.Perm s.storage
      ∧ (getAllF s (some fld) (some "descending")).1.Pairwise
          (fun a b => jsSub (getProp b fld) (getProp a fld) ≤ 0))
    ∧ (getFewF v fld (some (some fld, some "ascending")) s.storage).Pairwise
        (fun a b => jsSub (getProp a fld) (getProp b fld) ≤ 0)
    ∧ getAllF s none none = getAllF s (some "id") (some "ascending")
    ∧ (getAllF store7 (some "a") (some "descending")).1
        = [[("id", vNum 2), ("a", vNum 9)], [("id", vNum 1), ("a", vNum 3)],
            [("id", vNum 3), ("a", vNum 1)]] := by
  refine ⟨⟨sortF_perm _ _ _, sortF_asc_sorted _ fld h⟩,
    ⟨sortF_perm _ _ _, sortF_desc_sorted _ fld h⟩, ?_, rfl, by decide⟩
  exact sortF_asc_sorted _ fld
    (fun r hr => h r (List.mem_of_mem_filter hr))

/-- C7 witness: the §8 store has numeric `a` fields and sorts descending
to `[id:2, id:1, id:3]`. -/
theorem c7_witness :
    (∀ r ∈ store7.storage, ∃ n, getProp r "a" = vNum n)
    ∧ (getAllF store7 (some "a") (some "descending")).1
        = [[("id", vNum 2), ("a", vNum 9)], [("id", vNum 1), ("a", vNum 3)],
            [("id", vNum 3), ("a", vNum 1)]] :=
  ⟨by
    intro r hr
    simp only [store7, List.mem_cons, List.not_mem_nil, or_false] at hr
    rcases hr with rfl | rfl | rfl
    · exact ⟨3, rfl⟩
    · exact ⟨9, rfl⟩
    · exact ⟨1, rfl⟩,
    (c7_sort_policy store7 "a" (vNum 9) (by
      intro r hr
      simp only [store7, List.mem_cons, List.not_mem_nil, or_false] at hr
      rcases hr with rfl | rfl | rfl
      · exact ⟨3, rfl⟩
      · exact ⟨9, rfl⟩
      · exact ⟨1, rfl⟩)).2.2.2.2⟩

/-- C10: `getAll` sorts the live array in place and returns it — after
the call the store's stored sequence *is* the returned sorted sequence
(a permutation of the old storage, so insertion order is lost), schema
and options are untouched, and with no argument the new stored order is
ascending by id; every later `save`/`forEach`/iteration therefore
observes the sorted order. -/
theorem c10_getAll_mutates (s : Store) (field ord : Option String)
    (h : ∀ r ∈ s.storage, ∃ n, recId r = vNum n) :
    ((getAllF s field ord).2.storage = (getAllF s field ord).1)
    ∧ (getAllF s field ord).2.struct = s.struct
    ∧ (getAllF s field ord).2.opts = s.opts
    ∧ (getAllF s field ord).1.Perm s.storage
    ∧ (getAllF s none none).2.storage.Pairwise
        (fun a b => jsSub (recId a) (recId b) ≤ 0) := by
  refine ⟨rfl, rfl, rfl, sortF_perm _ _ _, ?_⟩
  exact sortF_asc_sorted s.storage "id" h

/-- C10 witness: the §8 store has numeric ids; `getAll()` stores and
returns the id-ascending order. -/
theorem c10_witness :
    (∀ r ∈ store7.storage, ∃ n, recId r = vNum n)
    ∧ ((getAllF store7 none none).2.storage = (getAllF store7 none none).1)
    ∧ (getAllF store7 none none).2.storage.Pairwise
        (fun a b => jsSub (recId a) (recId b) ≤ 0) := by
  have hnum : ∀ r ∈ store7.storage, ∃ n, recId r = vNum n := by
    intro r hr
    simp only [store7, List.mem_cons, List.not_mem_nil, or_false] at hr
    rcases hr with rfl | rfl | rfl
    · exact ⟨1, rfl⟩
    · exact ⟨2, rfl⟩
    · exact ⟨3, rfl⟩
  exact ⟨hnum, (c10_getAll_mutates store7 none none hnum).1,
    (c10_getAll_mutates store7 none none hnum).2.2.2.2⟩

end StorageMaster
